import Mathlib

/-!
Verification development for `workflow/stage2_kg_pretrain.py`: the distributed
ranking-aggregation protocol, the metric engine, the best-checkpoint training
loop, and the weighted binary-cross-entropy loss of the knowledge-graph
pretraining stage.

Conventions of the embedding:
* PyTorch long tensors become `List ℤ` (the ranking / num-negative vectors and
  everything in the aggregation protocol are integer tensors in the source).
* Float tensors become `ℚ` where the source only does field arithmetic, and
  `ℝ` where it takes `exp`/`log` (the training loss).
* Python strings become `List Char`, with the handful of `str` operations the
  source uses (`in`, `split`, slicing, `int(...)`, `startswith`) defined with
  Python's semantics.
* A raised Python exception becomes `Except String`; the error string names
  the exception site.
-/

namespace Stage2

/-! ## Cross-worker aggregation (`test`, lines 200–233)

Each worker `w` of `W` holds a local integer vector.  The protocol:
`all_size = zeros(W); all_size[rank] = len(local)` then `all_reduce(SUM)`;
`cum_size = all_size.cumsum(0)`; each worker writes its local vector into the
slice `[cum_size[rank] - all_size[rank] : cum_size[rank])` of a zero vector of
length `all_size.sum()`; finally `all_reduce(SUM)` of the padded vectors. -/

/-- Elementwise sum of two equal-length integer vectors; `dist.all_reduce`
with `ReduceOp.SUM` acts elementwise. -/
def sumVec (a b : List ℤ) : List ℤ := List.zipWith (· + ·) a b

/-- `torch.zeros(n, dtype=torch.long)`. -/
def zeros (n : ℕ) : List ℤ := List.replicate n 0

/-- `dist.all_reduce(..., op=SUM)`: every worker ends up with the elementwise
sum of all `W` workers' buffers, each of length `n`. -/
def sumReduce (vs : List (List ℤ)) (n : ℕ) : List ℤ := vs.foldr sumVec (zeros n)

/-- Python slice assignment `dst[start : start + len(src)] = src`. -/
def writeSlice (dst : List ℤ) (start : ℕ) (src : List ℤ) : List ℤ :=
  dst.take start ++ src ++ dst.drop (start + src.length)

/-- Helper for `torch.cumsum`: running-total accumulator. -/
def cumsumGo : ℤ → List ℤ → List ℤ
  | _, [] => []
  | acc, x :: r => (acc + x) :: cumsumGo (acc + x) r

/-- `torch.cumsum(l, 0)`: same-length vector of partial sums. -/
def cumsum (l : List ℤ) : List ℤ := cumsumGo 0 l

/-- The whole aggregation protocol run over the list of per-worker local
vectors (`ws.getD w []` is worker `w`'s local vector, `W = ws.length`),
exactly as `test` performs it for `ranking`, `num_negative` and their
tail-only twins. -/
def aggregate (ws : List (List ℤ)) : List ℤ :=
  let W := ws.length
  let sizeVecs := (List.range W).map fun w =>
    writeSlice (zeros W) w [((ws.getD w []).length : ℤ)]
  let allSize := sumReduce sizeVecs W
  let total := allSize.sum.toNat
  let cum := cumsum allSize
  let padded := (List.range W).map fun w =>
    writeSlice (zeros total) ((cum.getD w 0) - (allSize.getD w 0)).toNat (ws.getD w [])
  sumReduce padded total

/-- Sum of the lengths of the first `w` vectors: the offset at which worker
`w`'s slice begins. -/
def prefLen (ws : List (List ℤ)) (w : ℕ) : ℕ := ((ws.take w).map List.length).sum

/-- Recursive form of the family of per-worker padded buffers: worker offsets
increase by the length of each preceding local vector. -/
def goPad (T : ℕ) : ℕ → List (List ℤ) → List (List ℤ)
  | _, [] => []
  | off, v :: r => writeSlice (zeros T) off v :: goPad T (off + v.length) r

lemma sumVec_zeros_left (l : List ℤ) : sumVec (zeros l.length) l = l := by
  induction l with
  | nil => rfl
  | cons x r ih =>
      simp only [zeros, List.length_cons, List.replicate_succ, sumVec, List.zipWith_cons_cons,
        zero_add] at *
      rw [ih]

lemma sumVec_zeros_right (l : List ℤ) : sumVec l (zeros l.length) = l := by
  induction l with
  | nil => rfl
  | cons x r ih =>
      simp only [zeros, List.length_cons, List.replicate_succ, sumVec, List.zipWith_cons_cons,
        add_zero] at *
      rw [ih]

lemma writeSlice_zeros (T off : ℕ) (v : List ℤ) (h : off + v.length ≤ T) :
    writeSlice (zeros T) off v = zeros off ++ v ++ zeros (T - off - v.length) := by
  unfold writeSlice zeros
  rw [List.take_replicate, List.drop_replicate]
  have : off ⊓ T = off := Nat.min_eq_left (le_trans (Nat.le_add_right _ _) h)
  rw [this]
  congr 2
  omega

/-- Sum-reducing the consecutively placed padded buffers reconstructs the
concatenation of the local vectors, in order, padded with trailing zeros. -/
lemma sumReduce_goPad (vs : List (List ℤ)) :
    ∀ (T off : ℕ), off + ((vs.map List.length).sum) ≤ T →
    sumReduce (goPad T off vs) T =
      zeros off ++ vs.flatten ++ zeros (T - off - (vs.map List.length).sum) := by
  induction vs with
  | nil =>
      intro T off h
      simp only [goPad, sumReduce, List.foldr_nil, List.flatten_nil, List.map_nil,
        List.sum_nil, List.append_nil, Nat.sub_zero]
      simp only [List.map_nil, List.sum_nil, Nat.add_zero] at h
      rw [zeros, zeros, zeros, ← List.replicate_add]
      congr 1
      omega
  | cons v r ih =>
      intro T off h
      simp only [List.map_cons, List.sum_cons] at h
      have hvle : off + v.length ≤ T := by omega
      have hrle : (off + v.length) + ((r.map List.length).sum) ≤ T := by omega
      simp only [goPad, sumReduce, List.foldr_cons]
      have hrec : List.foldr sumVec (zeros T) (goPad T (off + v.length) r) =
          zeros (off + v.length) ++ r.flatten ++
            zeros (T - (off + v.length) - (r.map List.length).sum) := ih T (off + v.length) hrle
      have hflat : r.flatten.length = (r.map List.length).sum := List.length_flatten r
      have hsplit : zeros (off + v.length) = zeros off ++ zeros v.length := by
        simp only [zeros]
        exact List.replicate_add off v.length 0
      rw [hsplit] at hrec
      rw [hrec, writeSlice_zeros T off v hvle]
      have hz : zeros off ++ v ++ zeros (T - off - v.length) =
          zeros off ++ (v ++ zeros (T - off - v.length)) := by
        rw [List.append_assoc]
      have hz2 : zeros off ++ zeros v.length ++ r.flatten ++
            zeros (T - (off + v.length) - (r.map List.length).sum) =
          zeros off ++ (zeros v.length ++ (r.flatten ++
            zeros (T - (off + v.length) - (r.map List.length).sum))) := by
        simp only [List.append_assoc]
      rw [hz, hz2]
      unfold sumVec
      rw [List.zipWith_append _ _ _ _ _ (by simp [zeros])]
      have h1 : List.zipWith (· + ·) (zeros off) (zeros off) = zeros off := by
        have := sumVec_zeros_left (zeros off)
        simpa [sumVec, zeros] using this
      rw [h1]
      rw [List.zipWith_append _ _ _ _ _ (by simp [zeros])]
      have h2 : List.zipWith (· + ·) v (zeros v.length) = v := sumVec_zeros_right v
      rw [h2]
      have hlen3 : (r.flatten ++
          zeros (T - (off + v.length) - (r.map List.length).sum)).length =
          T - off - v.length := by
        simp only [List.length_append, hflat, zeros, List.length_replicate]
        omega
      have h3 : List.zipWith (· + ·) (zeros (T - off - v.length))
          (r.flatten ++ zeros (T - (off + v.length) - (r.map List.length).sum)) =
          r.flatten ++ zeros (T - (off + v.length) - (r.map List.length).sum) := by
        have := sumVec_zeros_left
          (r.flatten ++ zeros (T - (off + v.length) - (r.map List.length).sum))
        rw [hlen3] at this
        simpa [sumVec] using this
      rw [h3]
      simp only [List.flatten_cons, List.map_cons, List.sum_cons, List.append_assoc]
      rw [show (T - (off + v.length) - (r.map List.length).sum) =
        (T - off - (v.length + (r.map List.length).sum)) from by omega]

lemma flatten_map_singleton (ws : List (List ℤ)) (g : List ℤ → ℤ) :
    (ws.map (fun v => [g v])).flatten = ws.map g := by
  induction ws with
  | nil => rfl
  | cons v r ih => simp only [List.map_cons, List.flatten_cons, List.singleton_append, ih]

lemma prefLen_cons_succ (v : List ℤ) (r : List (List ℤ)) (w : ℕ) :
    prefLen (v :: r) (w + 1) = v.length + prefLen r w := by
  simp [prefLen, List.take_succ_cons]

lemma prefLen_map_singleton (ws : List (List ℤ)) (g : List ℤ → ℤ) (w : ℕ)
    (h : w ≤ ws.length) : prefLen (ws.map fun v => [g v]) w = w := by
  unfold prefLen
  rw [← List.map_take, List.map_map]
  have hconst : (ws.take w).map (List.length ∘ fun v => [g v]) =
      (ws.take w).map (Function.const _ 1) := by
    apply List.map_congr_left
    intro a _
    rfl
  rw [hconst, List.map_const, List.sum_replicate, smul_eq_mul, mul_one,
    List.length_take]
  omega

/-- The family of per-worker padded buffers, indexed by worker rank, is the
recursively placed family. -/
lemma rangeMap_goPad (ws : List (List ℤ)) :
    ∀ (T off : ℕ),
    ((List.range ws.length).map fun w =>
      writeSlice (zeros T) (off + prefLen ws w) (ws.getD w [])) = goPad T off ws := by
  induction ws with
  | nil => intro T off; rfl
  | cons v r ih =>
      intro T off
      rw [List.length_cons, List.range_succ_eq_map, List.map_cons, List.map_map]
      have hhead : off + prefLen (v :: r) 0 = off := by simp [prefLen]
      have htail : ((List.range r.length).map
          ((fun w => writeSlice (zeros T) (off + prefLen (v :: r) w) ((v :: r).getD w []))
            ∘ Nat.succ)) =
          (List.range r.length).map fun w =>
            writeSlice (zeros T) ((off + v.length) + prefLen r w) (r.getD w []) := by
        apply List.map_congr_left
        intro w _
        simp only [Function.comp_apply, Nat.succ_eq_add_one, prefLen_cons_succ,
          List.getD_cons_succ]
        rw [show off + (v.length + prefLen r w) = off + v.length + prefLen r w from by omega]
      rw [htail, ih T (off + v.length)]
      simp only [goPad, hhead, List.getD_cons_zero]

lemma cumsumGo_getD (l : List ℤ) :
    ∀ (acc : ℤ) (w : ℕ), w < l.length →
      (cumsumGo acc l).getD w 0 = acc + (l.take (w + 1)).sum := by
  induction l with
  | nil => intro acc w h; simp at h
  | cons x r ih =>
      intro acc w h
      cases w with
      | zero => simp [cumsumGo]
      | succ w =>
          simp only [cumsumGo, List.getD_cons_succ, List.take_succ_cons, List.sum_cons]
          rw [ih (acc + x) w (by simpa using h)]
          ring

lemma length_map_singleton (ws : List (List ℤ)) (g : List ℤ → ℤ) :
    List.map List.length (ws.map fun v => [g v]) = List.replicate ws.length 1 := by
  rw [List.map_map]
  have h : (List.length ∘ fun v : List ℤ => [g v]) = Function.const _ 1 := by
    funext v; rfl
  rw [h, List.map_const]

lemma sum_length_map_singleton (ws : List (List ℤ)) (g : List ℤ → ℤ) :
    (List.map List.length (ws.map fun v => [g v])).sum = ws.length := by
  rw [length_map_singleton, List.sum_replicate, smul_eq_mul, mul_one]

/-- Step 1 of the protocol: the sum-reduce of the one-hot size vectors is the
vector of all workers' local lengths. -/
lemma allSize_eq (ws : List (List ℤ)) :
    sumReduce ((List.range ws.length).map fun w =>
        writeSlice (zeros ws.length) w [((ws.getD w []).length : ℤ)]) ws.length =
      ws.map fun v => ((v.length : ℤ)) := by
  have h1 : ((List.range ws.length).map fun w =>
      writeSlice (zeros ws.length) w [((ws.getD w []).length : ℤ)]) =
      goPad ws.length 0 (ws.map fun v => [((v.length : ℤ))]) := by
    have hlen : (ws.map fun v => [((v.length : ℤ))]).length = ws.length := by
      rw [List.length_map]
    rw [← rangeMap_goPad, hlen]
    apply List.map_congr_left
    intro w hw
    have hwW : w < ws.length := List.mem_range.mp hw
    have hoff : 0 + prefLen (ws.map fun v => [((v.length : ℤ))]) w = w := by
      rw [Nat.zero_add, prefLen_map_singleton _ _ _ (le_of_lt hwW)]
    have hget : (ws.map fun v => [((v.length : ℤ))]).getD w [] =
        [(((ws.getD w []).length : ℤ))] := by
      rw [List.getD_eq_getElem _ _ (by rw [List.length_map]; exact hwW),
        List.getD_eq_getElem _ _ hwW, List.getElem_map]
    rw [hoff, hget]
  rw [h1, sumReduce_goPad _ _ 0
    (by rw [sum_length_map_singleton]; omega)]
  rw [sum_length_map_singleton, flatten_map_singleton]
  simp [zeros]

/-- `aggregate` reconstructs the exact rank-ordered concatenation of the
per-worker local vectors. -/
lemma aggregate_eq_flatten (ws : List (List ℤ)) : aggregate ws = ws.flatten := by
  have hsize := allSize_eq ws
  have htot : ((ws.map fun v => ((v.length : ℤ))).sum).toNat = (ws.map List.length).sum := by
    rw [show (ws.map fun v => ((v.length : ℤ))) = (ws.map List.length).map Nat.cast from by
      rw [List.map_map]; rfl]
    rw [← Nat.cast_list_sum, Int.toNat_natCast]
  have hoffs : ∀ w < ws.length,
      ((cumsum (ws.map fun v => ((v.length : ℤ)))).getD w 0 -
        ((ws.map fun v => ((v.length : ℤ))).getD w 0)).toNat = prefLen ws w := by
    intro w hw
    have hwl : w < (ws.map fun v => ((v.length : ℤ))).length := by
      rw [List.length_map]; exact hw
    rw [cumsum, cumsumGo_getD _ _ _ hwl, List.getD_eq_getElem _ _ hwl,
      List.sum_take_succ _ _ hwl]
    rw [show (0 : ℤ) + (((ws.map fun v => ((v.length : ℤ))).take w).sum +
        (ws.map fun v => ((v.length : ℤ)))[w]) -
        (ws.map fun v => ((v.length : ℤ)))[w] =
        ((ws.map fun v => ((v.length : ℤ))).take w).sum from by ring]
    rw [← List.map_take]
    rw [show ((ws.take w).map fun v => ((v.length : ℤ))) =
      ((ws.take w).map List.length).map Nat.cast from by rw [List.map_map]; rfl]
    rw [← Nat.cast_list_sum, Int.toNat_natCast]
    rfl
  unfold aggregate
  simp only [hsize, htot]
  have hpad : ((List.range ws.length).map fun w =>
      writeSlice (zeros ((ws.map List.length).sum))
        (((cumsum (ws.map fun v => ((v.length : ℤ)))).getD w 0 -
          ((ws.map fun v => ((v.length : ℤ))).getD w 0)).toNat) (ws.getD w [])) =
      goPad ((ws.map List.length).sum) 0 ws := by
    rw [← rangeMap_goPad]
    apply List.map_congr_left
    intro w hw
    rw [hoffs w (List.mem_range.mp hw), Nat.zero_add]
  rw [hpad, sumReduce_goPad _ _ 0 (by omega)]
  simp [zeros]

/-- C1: for every evaluation pass, the size-exchange / prefix-sum /
zero-padded-slice / sum-reduce protocol turns the per-worker local vectors
into their rank-ordered exact concatenation: the global vector has length
equal to the sum of the per-worker counts, every local entry appears exactly
once in worker-rank-ascending then within-worker order (this is precisely
`List.flatten`), and for a single worker the output is the unmodified local
vector.  It applies verbatim to both the ranking and the num-negatives
vectors, which the source pushes through the identical protocol. -/
theorem aggregate_is_ordered_concatenation (ws : List (List ℤ)) :
    aggregate ws = ws.flatten ∧
    (aggregate ws).length = (ws.map List.length).sum ∧
    ∀ l : List ℤ, aggregate [l] = l := by
  refine ⟨aggregate_eq_flatten ws, ?_, ?_⟩
  · rw [aggregate_eq_flatten]
    exact List.length_flatten ws
  · intro l
    rw [aggregate_eq_flatten]
    simp

/-! ## Metric engine, pure layer (`test`, lines 249–275)

Float tensors become `ℚ`.  `mean` of the empty vector is the junk value `0`
(the source produces NaN there); no theorem below relies on the empty case. -/

/-- `tensor.mean()`. -/
def mean (l : List ℚ) : ℚ := l.sum / l.length

/-- `score = _ranking.float().mean()` (the `mr` branch). -/
def mrScore (ranking : List ℕ) : ℚ := mean (ranking.map fun r : ℕ => (r : ℚ))

/-- `score = (1 / _ranking.float()).mean()` (the `mrr` branch). -/
def mrrScore (ranking : List ℕ) : ℚ := mean (ranking.map fun r : ℕ => 1 / (r : ℚ))

/-- `score = (_ranking <= threshold).float().mean()` (the exact `hits@K`
branch). -/
def hitsScore (K : ℕ) (ranking : List ℕ) : ℚ :=
  mean (ranking.map fun r : ℕ => if r ≤ K then (1 : ℚ) else 0)

/-- `fp_rate = (_ranking - 1).float() / _num_neg`, one query. -/
def fpRate (r n : ℕ) : ℚ := ((r : ℚ) - 1) / (n : ℚ)

/-- One estimator term of the `hits@K_S` loop at index `i` for
false-positive rate `p`: `num_comb * p**i * (1-p)**(S-1-i)` with `num_comb`
the factorial ratio `(S-1)!/(i)!/(S-1-i)!`. -/
def estTerm (S i : ℕ) (p : ℚ) : ℚ :=
  ((Nat.factorial (S - 1) : ℚ) / (Nat.factorial i : ℚ) / (Nat.factorial (S - 1 - i) : ℚ)) *
    p ^ i * (1 - p) ^ (S - 1 - i)

/-- Partial accumulation of estimator terms over a list of loop indices. -/
def estPart (S : ℕ) (is : List ℕ) (p : ℚ) : ℚ := (is.map fun i => estTerm S i p).sum

/-- Per-query unbiased-estimator score for `hits@K_S` in the regime `K ≤ S`
where the source's factorial arguments are all non-negative:
`sum over i < K of (S-1)!/(i)!/(S-1-i)! * p^i * (1-p)^(S-1-i)`. -/
def estQ (K S : ℕ) (p : ℚ) : ℚ := estPart S (List.range K) p

/-! ## Metric engine, dispatch layer (`test`, lines 235–278)

Python strings become `List Char`; a raised exception becomes
`Except.error` with a string naming the exception site. -/

/-- Accumulator for Python `s.split(sep)` with a single-character separator
(the source only splits on `"-"` and `"_"`). -/
def pySplitGo (sep : Char) : List Char → List Char → List (List Char)
  | acc, [] => [acc.reverse]
  | acc, c :: rest =>
      if c = sep then acc.reverse :: pySplitGo sep [] rest
      else pySplitGo sep (c :: acc) rest

/-- Python `s.split(sep)` for a one-character separator: split at every
occurrence; no occurrence gives the one-element list `[s]`. -/
def pySplit (sep : Char) (s : List Char) : List (List Char) := pySplitGo sep [] s

/-- Digit accumulator for `int(...)`. -/
def parseNatAux : List Char → ℕ → Option ℕ
  | [], acc => some acc
  | c :: r, acc => if c.isDigit then parseNatAux r (acc * 10 + (c.toNat - 48)) else none

/-- Python `int(s)` restricted to the shapes that reach it here: a non-empty
all-digit string parses to its decimal value, anything else raises
`ValueError` (modelled as `none`). -/
def parseNat : List Char → Option ℕ
  | [] => none
  | c :: r => parseNatAux (c :: r) 0

/-- `math.factorial` on a Python `int`: raises `ValueError` on a negative
argument. -/
def pyFactorial (n : ℤ) : Except String ℕ :=
  if n < 0 then .error "ValueError: factorial not defined for negative values"
  else .ok (Nat.factorial n.toNat)

/-- The `for i in range(threshold)` accumulation loop of the unbiased
estimator, iterating over the remaining values of `i` with the running
`score` vector (one entry per query; `score` starts as the zero vector).
Each iteration computes `num_comb` from three factorials (failing like
Python if an argument is negative) and adds
`num_comb * fp_rate**i * (1 - fp_rate)**(num_sample - i - 1)` elementwise. -/
def hitsEstLoop (S : ℕ) (fp : List ℚ) : List ℕ → List ℚ → Except String (List ℚ)
  | [], score => .ok score
  | i :: rest, score =>
      match pyFactorial ((S : ℤ) - 1) with
      | .error e => .error e
      | .ok f1 =>
          match pyFactorial (i : ℤ) with
          | .error e => .error e
          | .ok f2 =>
              match pyFactorial ((S : ℤ) - (i : ℤ) - 1) with
              | .error e => .error e
              | .ok f3 =>
                  hitsEstLoop S fp rest
                    (List.zipWith
                      (fun s p => s + ((f1 : ℚ) / (f2 : ℚ) / (f3 : ℚ)) * p ^ i *
                        (1 - p) ^ (((S : ℤ) - (i : ℤ) - 1).toNat))
                      score fp)

/-- The whole `hits@K_S` unbiased-estimation branch (lines 258–273):
`fp_rate = (_ranking - 1).float() / _num_neg`, the accumulation loop over
`range(threshold)` starting from the zero score vector, then `score.mean()`. -/
def hitsUnbiased (K S : ℕ) (ranking numNeg : List ℕ) : Except String ℚ :=
  match hitsEstLoop S (List.zipWith fpRate ranking numNeg) (List.range K)
      (List.replicate (List.zipWith fpRate ranking numNeg).length 0) with
  | .error e => .error e
  | .ok scoreVec => .ok (mean scoreVec)

/-- The four aggregated vectors available to the metric loop: combined
head+tail `all_ranking` / `all_num_negative` and the tail-only
`all_ranking_t` / `all_num_negative_t`. -/
structure EvalAgg where
  ranking : List ℕ
  numNeg : List ℕ
  rankingT : List ℕ
  numNegT : List ℕ

/-- One iteration of the metric loop (lines 237–277), producing the value
bound to the Python local `score` at the end of the iteration.  `prev` is
the value `score` held before the iteration (`none` if no earlier iteration
assigned it).  Faithful points: the `-tail` routing tests substring
containment (`"-tail" in metric`); `metric.split("-")` must yield exactly
two parts (tuple unpacking); a direction other than `tail` raises; and a
metric name matching no branch leaves `score` untouched — which is a
`NameError` if `score` was never bound, and otherwise silently reuses the
previous iteration's value. -/
def metricRoute (agg : EvalAgg) (metric : List Char) :
    Except String (List Char × List ℕ × List ℕ) :=
  if "-tail".data <:+: metric then
    match pySplit '-' metric with
    | [a, b] =>
        if b = "tail".data then
          .ok (a, agg.rankingT, agg.numNegT)
        else .error "ValueError: Only tail metric is supported in this mode"
    | _ => .error "ValueError: too many values to unpack"
  else
    .ok (metric, agg.ranking, agg.numNeg)

/-- Dispatch on the routed `_metric_name` (lines 249–275), given the Python
local `score` from the previous iteration in `prev`. -/
def metricDispatch (prev : Option ℚ) (mname : List Char) (rk nn : List ℕ) :
    Except String ℚ :=
  if mname = "mr".data then
    .ok (mrScore rk)
  else if mname = "mrr".data then
    .ok (mrrScore rk)
  else if ("hits@".data).isPrefixOf mname then
    match parseNat ((pySplit '_' (mname.drop 5)).headD []) with
    | none => .error "ValueError: invalid literal for int"
    | some threshold =>
        if (pySplit '_' (mname.drop 5)).length > 1 then
          match parseNat ((pySplit '_' (mname.drop 5)).getD 1 []) with
          | none => .error "ValueError: invalid literal for int"
          | some numSample => hitsUnbiased threshold numSample rk nn
        else
          .ok (hitsScore threshold rk)
  else
    match prev with
    | some s => .ok s
    | none => .error "NameError: local variable score is not defined"

/-- One full iteration of the metric loop. -/
def metricScore (agg : EvalAgg) (prev : Option ℚ) (metric : List Char) :
    Except String ℚ :=
  match metricRoute agg metric with
  | .error e => .error e
  | .ok (mname, rk, nn) => metricDispatch prev mname rk nn

/-- The metric loop over the requested metric names, threading the Python
local `score` between iterations and recording `metrics[metric] = score`. -/
def computeMetricsGo (agg : EvalAgg) : Option ℚ → List (List Char) →
    Except String (List (List Char × ℚ))
  | _, [] => .ok []
  | prev, m :: rest =>
      match metricScore agg prev m with
      | .error e => .error e
      | .ok s =>
          match computeMetricsGo agg (some s) rest with
          | .error e => .error e
          | .ok r => .ok ((m, s) :: r)

/-- Lines 235–278 of `test` after the aggregation: `metrics = {}` is filled
only on rank 0, and `mrr = (1 / all_ranking.float()).mean()` is computed on
every rank from the combined aggregate; `test` returns `mrr` (the
model-selection criterion) unless `return_metrics` is set. -/
def testResult (rank : ℕ) (names : List (List Char)) (agg : EvalAgg) :
    Except String (List (List Char × ℚ) × ℚ) :=
  match (if rank = 0 then computeMetricsGo agg none names else .ok []) with
  | .error e => .error e
  | .ok metrics => .ok (metrics, mrrScore agg.ranking)

/-- Decidable equality for the embedded outcomes, so concrete runs of the
metric engine can be checked by evaluation. -/
instance exceptDecEq {e a : Type} [DecidableEq e] [DecidableEq a] :
    DecidableEq (Except e a) := fun x y =>
  match x, y with
  | .ok v, .ok w =>
      if h : v = w then .isTrue (by rw [h]) else .isFalse (fun hc => h (Except.ok.inj hc))
  | .error v, .error w =>
      if h : v = w then .isTrue (by rw [h]) else .isFalse (fun hc => h (Except.error.inj hc))
  | .ok _, .error _ => .isFalse (fun hc => Except.noConfusion hc)
  | .error _, .ok _ => .isFalse (fun hc => Except.noConfusion hc)

lemma zipWith_left_of_length_le (score fp : List ℚ) (h : score.length ≤ fp.length) :
    List.zipWith (fun s _ => s) score fp = score := by
  induction score generalizing fp with
  | nil => simp
  | cons a as ih =>
      cases fp with
      | nil => simp at h
      | cons b bs =>
          simp only [List.zipWith_cons_cons, List.cons.injEq, true_and]
          exact ih bs (by simpa using h)

lemma zipWith_add_comp (t e : ℚ → ℚ) :
    ∀ (score fp : List ℚ),
    List.zipWith (fun s p => s + e p) (List.zipWith (fun s p => s + t p) score fp) fp =
      List.zipWith (fun s p => s + (t p + e p)) score fp := by
  intro score
  induction score with
  | nil => intro fp; simp
  | cons a as ih =>
      intro fp
      cases fp with
      | nil => simp
      | cons b bs =>
          simp only [List.zipWith_cons_cons, List.cons.injEq]
          exact ⟨by ring, ih bs⟩

lemma zipWith_add_replicate_zero (e : ℚ → ℚ) (fp : List ℚ) :
    List.zipWith (fun s p => s + e p) (List.replicate fp.length 0) fp = fp.map e := by
  induction fp with
  | nil => simp
  | cons b bs ih =>
      simp only [List.length_cons, List.replicate_succ, List.zipWith_cons_cons, zero_add,
        List.map_cons, List.cons.injEq, true_and]
      exact ih

/-- While every loop index stays below `S`, the estimator loop never raises
and adds the corresponding estimator terms to the score vector. -/
lemma hitsEstLoop_ok (S : ℕ) (fp : List ℚ) :
    ∀ (is : List ℕ), (∀ i ∈ is, i < S) →
    ∀ score : List ℚ, score.length = fp.length →
    hitsEstLoop S fp is score =
      .ok (List.zipWith (fun s p => s + estPart S is p) score fp) := by
  intro is
  induction is with
  | nil =>
      intro _ score hlen
      simp only [hitsEstLoop, estPart, List.map_nil, List.sum_nil, add_zero]
      rw [zipWith_left_of_length_le score fp (le_of_eq hlen)]
  | cons i rest ih =>
      intro hlt score hlen
      have hiS : i < S := hlt i (List.mem_cons_self i rest)
      have e1 : ((S : ℤ) - 1).toNat = S - 1 := by omega
      have e2 : ((i : ℤ)).toNat = i := by omega
      have e3 : ((S : ℤ) - (i : ℤ) - 1).toNat = S - 1 - i := by omega
      have hf1 : pyFactorial ((S : ℤ) - 1) = .ok (Nat.factorial (S - 1)) := by
        rw [pyFactorial, if_neg (by omega), e1]
      have hf2 : pyFactorial ((i : ℤ)) = .ok (Nat.factorial i) := by
        rw [pyFactorial, if_neg (by omega), e2]
      have hf3 : pyFactorial ((S : ℤ) - (i : ℤ) - 1) = .ok (Nat.factorial (S - 1 - i)) := by
        rw [pyFactorial, if_neg (by omega), e3]
      have hfun : (fun s p : ℚ => s + ((Nat.factorial (S - 1) : ℚ) / (Nat.factorial i : ℚ) /
            (Nat.factorial (S - 1 - i) : ℚ)) * p ^ i *
            (1 - p) ^ (((S : ℤ) - (i : ℤ) - 1).toNat)) =
          fun s p : ℚ => s + estTerm S i p := by
        funext s p
        rw [e3, estTerm]
      rw [hitsEstLoop, hf1, hf2, hf3]
      dsimp only
      rw [hfun]
      rw [ih (fun j hj => hlt j (List.mem_cons_of_mem i hj)) _
        (by rw [List.length_zipWith, hlen, Nat.min_self])]
      rw [zipWith_add_comp (estTerm S i) (estPart S rest) score fp]
      have hpart : (fun s p : ℚ => s + (estTerm S i p + estPart S rest p)) =
          fun s p : ℚ => s + estPart S (i :: rest) p := by
        funext s p
        simp only [estPart, List.map_cons, List.sum_cons]
      rw [hpart]

/-- In the regime `K ≤ S` the `hits@K_S` branch succeeds and returns the mean
of the per-query estimator scores. -/
lemma hitsUnbiased_ok (K S : ℕ) (hKS : K ≤ S) (rk nn : List ℕ) :
    hitsUnbiased K S rk nn =
      .ok (mean ((List.zipWith fpRate rk nn).map (estQ K S))) := by
  rw [hitsUnbiased,
    hitsEstLoop_ok S _ (List.range K)
      (fun i hi => lt_of_lt_of_le (List.mem_range.mp hi) hKS) _
      (by rw [List.length_replicate])]
  rw [zipWith_add_replicate_zero (estPart S (List.range K)) (List.zipWith fpRate rk nn)]
  rfl

lemma hitsEstLoop_append (S : ℕ) (fp : List ℚ) (is₁ is₂ : List ℕ) :
    ∀ score, hitsEstLoop S fp (is₁ ++ is₂) score =
      match hitsEstLoop S fp is₁ score with
      | .error e => .error e
      | .ok s => hitsEstLoop S fp is₂ s := by
  induction is₁ with
  | nil => intro score; rfl
  | cons i rest ih =>
      intro score
      simp only [List.cons_append, hitsEstLoop]
      cases hf1 : pyFactorial ((S : ℤ) - 1) with
      | error e => rfl
      | ok f1 =>
          cases hf2 : pyFactorial ((i : ℤ)) with
          | error e => rfl
          | ok f2 =>
              cases hf3 : pyFactorial ((S : ℤ) - (i : ℤ) - 1) with
              | error e => rfl
              | ok f3 => exact ih _

/-- At loop index `i = S` the third factorial argument is `-1`, so the loop
raises Python's factorial `ValueError`. -/
lemma hitsEstLoop_error_at (S : ℕ) (hS : 1 ≤ S) (fp score : List ℚ) (rest : List ℕ) :
    hitsEstLoop S fp (S :: rest) score =
      .error "ValueError: factorial not defined for negative values" := by
  have hf1 : pyFactorial ((S : ℤ) - 1) = .ok (Nat.factorial (((S : ℤ) - 1).toNat)) := by
    rw [pyFactorial, if_neg (by omega)]
  have hf2 : pyFactorial ((S : ℤ)) = .ok (Nat.factorial (((S : ℤ)).toNat)) := by
    rw [pyFactorial, if_neg (by omega)]
  have hf3 : pyFactorial ((S : ℤ) - (S : ℤ) - 1) =
      .error "ValueError: factorial not defined for negative values" := by
    rw [pyFactorial, if_pos (by omega)]
  rw [hitsEstLoop, hf1, hf2, hf3]

/-- For `K > S ≥ 1` the `hits@K_S` branch always raises the factorial
`ValueError` (reached at loop index `i = S`). -/
lemma hitsUnbiased_error (K S : ℕ) (hS : 1 ≤ S) (hSK : S < K) (rk nn : List ℕ) :
    hitsUnbiased K S rk nn =
      .error "ValueError: factorial not defined for negative values" := by
  have hsplit : List.range K = (List.range S ++ [S]) ++
      ((List.range (K - (S + 1))).map fun j => (S + 1) + j) := by
    rw [← List.range_succ, ← List.range_add]
    congr 1
    omega
  rw [hitsUnbiased, hsplit, hitsEstLoop_append, hitsEstLoop_append,
    hitsEstLoop_ok S _ (List.range S) (fun i hi => List.mem_range.mp hi) _
      (by rw [List.length_replicate])]
  dsimp only
  rw [hitsEstLoop_error_at S hS]

lemma factorial_ratio_eq_choose (n k : ℕ) (h : k ≤ n) :
    (Nat.factorial n : ℚ) / (Nat.factorial k : ℚ) / (Nat.factorial (n - k) : ℚ) =
      ((n.choose k : ℕ) : ℚ) := by
  have key := Nat.choose_mul_factorial_mul_factorial h
  have keyQ : ((n.choose k : ℕ) : ℚ) * (Nat.factorial k : ℚ) * (Nat.factorial (n - k) : ℚ) =
      (Nat.factorial n : ℚ) := by exact_mod_cast congrArg (Nat.cast : ℕ → ℚ) key
  have h1 : (Nat.factorial k : ℚ) ≠ 0 := Nat.cast_ne_zero.mpr (Nat.factorial_ne_zero k)
  have h2 : (Nat.factorial (n - k) : ℚ) ≠ 0 := Nat.cast_ne_zero.mpr (Nat.factorial_ne_zero _)
  rw [div_div, div_eq_iff (mul_ne_zero h1 h2)]
  linear_combination -keyQ

lemma estTerm_eq_choose (S i : ℕ) (h : i ≤ S - 1) (p : ℚ) :
    estTerm S i p = (((S - 1).choose i : ℕ) : ℚ) * p ^ i * (1 - p) ^ (S - 1 - i) := by
  rw [estTerm, factorial_ratio_eq_choose _ _ h]

/-- The spec's wording of the `hits@K_S` metric, stated independently of the
code path: per query `p = (rank-1)/num_negatives` and
`score = sum over i from 0 to K-1 of C(S-1, i) * p^i * (1-p)^(S-1-i)` with
`C` the binomial coefficient, averaged over the queries. -/
def specHitsUnbiased (K S : ℕ) (rk nn : List ℕ) : ℚ :=
  mean (List.zipWith (fun r n : ℕ =>
    ((List.range K).map fun i =>
      (((S - 1).choose i : ℕ) : ℚ) * (((r : ℚ) - 1) / (n : ℚ)) ^ i *
        (1 - ((r : ℚ) - 1) / (n : ℚ)) ^ (S - 1 - i)).sum) rk nn)

lemma estQ_eq_spec_term (K S : ℕ) (hKS : K ≤ S) (p : ℚ) :
    estQ K S p =
      ((List.range K).map fun i =>
        (((S - 1).choose i : ℕ) : ℚ) * p ^ i * (1 - p) ^ (S - 1 - i)).sum := by
  rw [estQ, estPart]
  congr 1
  apply List.map_congr_left
  intro i hi
  exact estTerm_eq_choose S i (by have := List.mem_range.mp hi; omega) p

/-- The complete binomial sum: at `K = S` every query scores exactly 1. -/
lemma estQ_diag (S : ℕ) (hS : 1 ≤ S) (p : ℚ) : estQ S S p = 1 := by
  rw [estQ_eq_spec_term S S le_rfl p]
  have hconv : ((List.range S).map fun i =>
      (((S - 1).choose i : ℕ) : ℚ) * p ^ i * (1 - p) ^ (S - 1 - i)).sum =
      ∑ i ∈ Finset.range S, (((S - 1).choose i : ℕ) : ℚ) * p ^ i * (1 - p) ^ (S - 1 - i) := rfl
  rw [hconv]
  have hpow := add_pow p (1 - p) (S - 1)
  rw [show p + (1 - p) = 1 from by ring, one_pow,
    show S - 1 + 1 = S from by omega] at hpow
  calc ∑ i ∈ Finset.range S, (((S - 1).choose i : ℕ) : ℚ) * p ^ i * (1 - p) ^ (S - 1 - i)
      = ∑ i ∈ Finset.range S, p ^ i * (1 - p) ^ (S - 1 - i) * (((S - 1).choose i : ℕ) : ℚ) := by
        apply Finset.sum_congr rfl
        intro i _
        ring
    _ = 1 := hpow.symm

lemma estQ_zero (K S : ℕ) (hK : 1 ≤ K) : estQ K S 0 = 1 := by
  rw [estQ, estPart]
  have hconv : ((List.range K).map fun i => estTerm S i 0).sum =
      ∑ i ∈ Finset.range K, estTerm S i 0 := rfl
  rw [hconv]
  rw [Finset.sum_eq_single_of_mem 0 (Finset.mem_range.mpr (by omega))]
  · rw [estTerm, Nat.sub_zero, pow_zero, mul_one, sub_zero, one_pow, mul_one,
      Nat.factorial_zero, Nat.cast_one, div_one,
      div_self (Nat.cast_ne_zero.mpr (Nat.factorial_ne_zero _))]
  · intro i _ hine
    rw [estTerm, zero_pow hine]
    ring

lemma estQ_one (K S : ℕ) (hS : 1 ≤ S) (hKS : K ≤ S) :
    estQ K S 1 = if K = S then 1 else 0 := by
  rw [estQ, estPart]
  have hzero : ∀ i : ℕ, i < S - 1 → estTerm S i 1 = 0 := by
    intro i hi
    rw [estTerm, sub_self, zero_pow (by omega), mul_zero]
  by_cases hKeq : K = S
  · subst hKeq
    rw [if_pos rfl]
    have hconv : ((List.range K).map fun i => estTerm K i 1).sum =
        ∑ i ∈ Finset.range K, estTerm K i 1 := rfl
    rw [hconv, Finset.sum_eq_single_of_mem (K - 1) (Finset.mem_range.mpr (by omega))]
    · rw [estTerm, Nat.sub_self, pow_zero, one_pow, mul_one, mul_one, Nat.factorial_zero,
        Nat.cast_one, div_one, div_self (Nat.cast_ne_zero.mpr (Nat.factorial_ne_zero _))]
    · intro i hmem hine
      exact hzero i (by have := Finset.mem_range.mp hmem; omega)
  · rw [if_neg hKeq]
    have hconv : ((List.range K).map fun i => estTerm S i 1).sum =
        ∑ i ∈ Finset.range K, estTerm S i 1 := rfl
    rw [hconv]
    apply Finset.sum_eq_zero
    intro i hi
    exact hzero i (by have := Finset.mem_range.mp hi; omega)

end Stage2

namespace Stage2

lemma mean_replicate_one (L : ℕ) (hL : L ≠ 0) : mean (List.replicate L (1 : ℚ)) = 1 := by
  rw [mean, List.sum_replicate, List.length_replicate, nsmul_eq_mul, mul_one,
    div_self (Nat.cast_ne_zero.mpr hL)]

lemma sum_indicator_eq_filter_length (K : ℕ) (rs : List ℕ) :
    ((rs.map fun r : ℕ => if r ≤ K then (1 : ℚ) else 0).sum) =
      ((rs.filter fun r => r ≤ K).length : ℚ) := by
  induction rs with
  | nil => simp
  | cons r rest ih =>
      simp only [List.map_cons, List.sum_cons, List.filter_cons]
      by_cases hr : r ≤ K
      · rw [if_pos hr, if_pos (by simpa : decide (r ≤ K) = true), List.length_cons, ih]
        push_cast
        ring
      · rw [if_neg hr, if_neg (by simp [hr] : ¬decide (r ≤ K) = true), ih]
        simp

end Stage2

namespace Stage2

/-- C2, counterexample to the unrestricted claim: for `hits@3_2` (`K = 3`,
`S = 2`, both within the claim's stated domain `K ≥ 1`, `S ≥ 2`) the engine
raises from `math.factorial` at loop index `i = 2` (argument `S-1-i = -1`)
instead of returning the claimed mean, although the claim's binomial formula
(`C(1,2) = 0`) is well-defined there and evaluates to 1. -/
theorem hits_estimator_formula_fails_for_k_gt_s :
    hitsUnbiased 3 2 [1] [1] =
      .error "ValueError: factorial not defined for negative values" ∧
    specHitsUnbiased 3 2 [1] [1] = 1 := by
  constructor
  · decide
  · norm_num [specHitsUnbiased, mean, show List.range 3 = [0, 1, 2] from rfl, Nat.choose]

/-- C2 (amended: restricted to `K ≤ S`, where the factorial arguments stay
non-negative): for the metric `hits@K_S` the engine computes per query
`p = (rank-1)/num_negatives` and `score = sum over i < K of
C(S-1, i) * p^i * (1-p)^(S-1-i)` with the binomial coefficient realised as
the factorial ratio `(S-1)!/i!/(S-1-i)!`, and returns the mean over queries;
for `K > S` it instead raises from the factorial (see the counterexample). -/
theorem hits_estimator_matches_spec_formula (K S : ℕ) (rk nn : List ℕ)
    (hK : 1 ≤ K) (hS : 2 ≤ S) (hKS : K ≤ S) :
    hitsUnbiased K S rk nn = .ok (specHitsUnbiased K S rk nn) := by
  rw [hitsUnbiased_ok K S hKS, specHitsUnbiased]
  have hfg : (fun r n : ℕ => estQ K S (fpRate r n)) =
      fun r n : ℕ =>
        ((List.range K).map fun i =>
          (((S - 1).choose i : ℕ) : ℚ) * (((r : ℚ) - 1) / (n : ℚ)) ^ i *
            (1 - ((r : ℚ) - 1) / (n : ℚ)) ^ (S - 1 - i)).sum := by
    funext r n
    exact estQ_eq_spec_term K S hKS (fpRate r n)
  rw [List.map_zipWith, hfg]

/-- Concrete instantiation of the amended C2 theorem at `hits@2_3` on one
query of rank 2 with 2 negatives. -/
theorem hits_estimator_matches_spec_formula_witness :
    1 ≤ 2 ∧ 2 ≤ 3 ∧ 2 ≤ 3 ∧
    hitsUnbiased 2 3 [2] [2] = .ok (specHitsUnbiased 2 3 [2] [2]) :=
  ⟨by decide, by decide, by decide,
    hits_estimator_matches_spec_formula 2 3 [2] [2] (by decide) (by decide) (by decide)⟩

/-- C5, counterexample: for `hits@2_2` — a degenerate input with
`S - 1 = 1 < K = 2` — the engine performs no bound check and raises no
configuration error; it evaluates the complete binomial sum and returns the
score 1. -/
theorem hits_estimator_no_guard_counterexample :
    computeMetricsGo ⟨[1], [1], [1], [1]⟩ none ["hits@2_2".data] =
      .ok [("hits@2_2".data, 1)] := by
  norm_num +decide [computeMetricsGo, metricScore, metricRoute, metricDispatch,
    pySplit, pySplitGo, parseNat, parseNatAux, hitsUnbiased, hitsEstLoop, pyFactorial,
    fpRate, mean]

/-- C5 (amended): the code has no explicit bound check on the factorial-based
binomial coefficient.  For `K = S` (so `S-1 < K`) every per-query score is
the complete binomial sum, which equals 1, and the metric evaluates without
error to 1; only for `K > S` does the computation fail, and the failure is
the `ValueError` raised by `math.factorial` itself on the negative argument
`S-1-i` at loop index `i = S`, not an explicit guard. -/
theorem hits_estimator_degenerate_cases (K S : ℕ) (rk nn : List ℕ) (hS : 1 ≤ S) :
    (∀ p : ℚ, estQ S S p = 1) ∧
    (rk ≠ [] → rk.length = nn.length → hitsUnbiased S S rk nn = .ok 1) ∧
    (S < K → hitsUnbiased K S rk nn =
      .error "ValueError: factorial not defined for negative values") := by
  refine ⟨fun p => estQ_diag S hS p, ?_, fun h => hitsUnbiased_error K S hS h rk nn⟩
  intro hne hlen
  rw [hitsUnbiased_ok S S le_rfl]
  have hmap : (List.zipWith fpRate rk nn).map (estQ S S) =
      List.replicate ((List.zipWith fpRate rk nn).map (estQ S S)).length 1 := by
    apply List.eq_replicate_of_mem
    intro b hb
    obtain ⟨p, _, rfl⟩ := List.mem_map.mp hb
    exact estQ_diag S hS p
  rw [hmap, mean_replicate_one]
  rw [List.length_map, List.length_zipWith, hlen, Nat.min_self]
  intro hc
  exact hne (List.length_eq_zero.mp (by omega))

/-- Concrete instantiation of the amended C5 theorem: `hits@2_2` returns 1,
`hits@3_2` raises the factorial error. -/
theorem hits_estimator_degenerate_cases_witness :
    1 ≤ 2 ∧ hitsUnbiased 2 2 [1] [1] = .ok 1 ∧
    hitsUnbiased 3 2 [1] [1] =
      .error "ValueError: factorial not defined for negative values" :=
  ⟨by decide,
    (hits_estimator_degenerate_cases 3 2 [1] [1] (by decide)).2.1 (by decide) (by decide),
    (hits_estimator_degenerate_cases 3 2 [1] [1] (by decide)).2.2 (by decide)⟩

end Stage2

namespace Stage2

/-- When every query has the full candidate pool (`num_negatives = S - 1`)
and an extreme rank (1 or `num_negatives + 1`), the per-query estimator
scores coincide with the exact hits indicator. -/
lemma estimator_indicator_map (K S : ℕ) (hK : 1 ≤ K) (hKS : K ≤ S) :
    ∀ (rk nn : List ℕ), rk.length = nn.length →
    (∀ q ∈ rk.zip nn, q.2 + 1 = S ∧ 1 ≤ q.2 ∧ (q.1 = 1 ∨ q.1 = q.2 + 1)) →
    (List.zipWith fpRate rk nn).map (estQ K S) =
      rk.map (fun r : ℕ => if r ≤ K then (1 : ℚ) else 0) := by
  intro rk
  induction rk with
  | nil => intro nn _ _; simp
  | cons r rs ih =>
      intro nn hlen hq
      cases nn with
      | nil => simp at hlen
      | cons n ns =>
          obtain ⟨hnS, hn1, hr⟩ := hq (r, n) (by simp [List.zip_cons_cons])
          dsimp only at hnS hn1 hr
          have htail : ∀ q ∈ rs.zip ns,
              q.2 + 1 = S ∧ 1 ≤ q.2 ∧ (q.1 = 1 ∨ q.1 = q.2 + 1) := fun q hqm =>
            hq q (by simp [List.zip_cons_cons, hqm])
          simp only [List.zipWith_cons_cons, List.map_cons]
          rw [ih ns (by simpa using hlen) htail]
          congr 1
          rcases hr with h1 | hS1
          · subst h1
            have hfp : fpRate 1 n = 0 := by
              rw [fpRate]
              norm_num
            rw [hfp, estQ_zero K S hK, if_pos (by omega)]
          · subst hS1
            have hfp : fpRate (n + 1) n = 1 := by
              rw [fpRate]
              have hne : ((n : ℚ)) ≠ 0 := Nat.cast_ne_zero.mpr (by omega)
              push_cast
              field_simp
            rw [hfp, estQ_one K S (by omega) hKS]
            by_cases hKeq : K = S
            · rw [if_pos hKeq, if_pos (by omega)]
            · rw [if_neg hKeq, if_neg (by omega)]

/-- C9, counterexample to the general claim: one query of rank 2 with
`num_negatives = 2`, metric `hits@1_3` (so `S - 1 = 2 = num_negatives`, the
full candidate pool): the unbiased estimator returns `(1-1/2)^2 = 1/4`, while
the exact `hits@1` on the same ranking vector is 0. -/
theorem hits_estimator_not_exact_counterexample :
    hitsUnbiased 1 3 [2] [2] = .ok (1/4) ∧ hitsScore 1 [2] = 0 ∧ ((1 : ℚ)/4) ≠ 0 := by
  refine ⟨?_, ?_, by norm_num⟩
  · norm_num +decide [hitsUnbiased, hitsEstLoop, pyFactorial, fpRate, mean]
    rw [show Int.toNat 2 = 2 from rfl]
    norm_num
  · norm_num [hitsScore, mean]

/-- C9 (amended): with the full candidate pool (`num_negatives + 1 = S`,
`num_negatives ≥ 1`) the unbiased `hits@K_S` estimator (for `1 ≤ K ≤ S`)
coincides with the exact `hits@K` exactly when every query's estimated
false-positive rate is 0 or 1, i.e. every rank is 1 or `num_negatives + 1`;
for intermediate ranks the two differ (see the counterexample). -/
theorem hits_estimator_exact_at_extreme_ranks (K S : ℕ) (rk nn : List ℕ)
    (hK : 1 ≤ K) (hKS : K ≤ S) (hlen : rk.length = nn.length)
    (hq : ∀ q ∈ rk.zip nn, q.2 + 1 = S ∧ 1 ≤ q.2 ∧ (q.1 = 1 ∨ q.1 = q.2 + 1)) :
    hitsUnbiased K S rk nn = .ok (hitsScore K rk) := by
  rw [hitsUnbiased_ok K S hKS,
    estimator_indicator_map K S hK hKS rk nn hlen hq, hitsScore]

/-- Concrete instantiation of the amended C9 theorem: `hits@1_3` on ranks
`[1, 3]` with `num_negatives = [2, 2]` equals exact `hits@1`. -/
theorem hits_estimator_exact_at_extreme_ranks_witness :
    1 ≤ 1 ∧ 1 ≤ 3 ∧ [1, 3].length = [2, 2].length ∧
    hitsUnbiased 1 3 [1, 3] [2, 2] = .ok (hitsScore 1 [1, 3]) :=
  ⟨by decide, by decide, by decide,
    hits_estimator_exact_at_extreme_ranks 1 3 [1, 3] [2, 2] (by decide) (by decide)
      (by decide) (by decide)⟩

/-- C6: the metric engine computes `mr` as the mean of the ranking values,
`mrr` as the mean of the reciprocals, and `hits@K` as the fraction of
queries with rank at most `K`; on the ranking vector `[1,2,3,4]` the full
engine (string dispatch included) yields `mr = 5/2`,
`mrr = (1 + 1/2 + 1/3 + 1/4)/4 = 25/48`, `hits@1 = 1/4`, `hits@2 = 1/2`. -/
theorem metric_engine_formulas (rs : List ℕ) (K : ℕ) (hne : rs ≠ []) :
    mrScore rs = (rs.map fun r : ℕ => (r : ℚ)).sum / rs.length ∧
    mrrScore rs = (rs.map fun r : ℕ => 1 / (r : ℚ)).sum / rs.length ∧
    hitsScore K rs = ((rs.filter fun r => r ≤ K).length : ℚ) / rs.length ∧
    computeMetricsGo ⟨[1, 2, 3, 4], [4, 4, 4, 4], [1, 2, 3, 4], [4, 4, 4, 4]⟩ none
      ["mr".data, "mrr".data, "hits@1".data, "hits@2".data] =
      .ok [("mr".data, 5/2), ("mrr".data, 25/48),
        ("hits@1".data, 1/4), ("hits@2".data, 1/2)] := by
  refine ⟨?_, ?_, ?_, ?_⟩
  · rw [mrScore, mean, List.length_map]
  · rw [mrrScore, mean, List.length_map]
  · rw [hitsScore, mean, sum_indicator_eq_filter_length, List.length_map]
  · norm_num +decide [computeMetricsGo, metricScore, metricRoute, metricDispatch,
      pySplit, pySplitGo, parseNat, parseNatAux, mrScore, mrrScore, hitsScore, mean]

/-- Concrete instantiation of the C6 theorem on the vector `[1,2,3,4]`. -/
theorem metric_engine_formulas_witness :
    ([1, 2, 3, 4] : List ℕ) ≠ [] ∧
    hitsScore 2 [1, 2, 3, 4] =
      (([1, 2, 3, 4].filter fun r : ℕ => r ≤ 2).length : ℚ) / ([1, 2, 3, 4] : List ℕ).length :=
  ⟨by decide, (metric_engine_formulas [1, 2, 3, 4] 2 (by decide)).2.2.1⟩

end Stage2

namespace Stage2

/-- C4, behaviour of the engine on a suffixed metric name other than
`-tail` (here `mr-head`), run on aggregates whose combined `mrr` is 3/4 and
whose tail-only `mrr` is 1/7.  Because the `-tail` routing tests substring
containment, `mr-head` reaches the dispatch chain, matches no branch, and
the Python local `score` silently keeps the previous iteration's value: the
engine records `mr-head ↦ 3/4` (the preceding `mrr` score) with no error;
if such a name comes first, the fall-through is a `NameError`, not the
descriptive unsupported-mode rejection.  Names that do contain `-tail` with
a different direction (e.g. `mrr-tails`) are the only ones rejected, and
`-tail` itself routes to the tail-only aggregates (`mrr-tail ↦ 1/7`). -/
theorem metric_unsupported_suffix_fallthrough :
    (computeMetricsGo ⟨[1, 2], [1, 1], [7], [7]⟩ none ["mrr".data, "mr-head".data] =
      .ok [("mrr".data, 3/4), ("mr-head".data, 3/4)]) ∧
    (computeMetricsGo ⟨[1, 2], [1, 1], [7], [7]⟩ none ["mr-head".data] =
      .error "NameError: local variable score is not defined") ∧
    (computeMetricsGo ⟨[1, 2], [1, 1], [7], [7]⟩ none ["mrr-tail".data] =
      .ok [("mrr-tail".data, 1/7)]) ∧
    (computeMetricsGo ⟨[1, 2], [1, 1], [7], [7]⟩ none ["mrr-tails".data] =
      .error "ValueError: Only tail metric is supported in this mode") := by
  refine ⟨?_, by decide, ?_, by decide⟩
  · norm_num +decide [computeMetricsGo, metricScore, metricRoute, metricDispatch,
      pySplit, pySplitGo, parseNat, parseNatAux, mrScore, mrrScore, mean]
  · norm_num +decide [computeMetricsGo, metricScore, metricRoute, metricDispatch,
      pySplit, pySplitGo, mrrScore, mean]

/-- C7: whatever the requested metric-name list, whenever the evaluation
tail of `test` returns, the returned model-selection scalar is the `mrr` of
the combined (head+tail) aggregated ranking — computed on every rank — and
a worker of nonzero rank returns an empty metrics dictionary (it skips the
metric loop entirely). -/
theorem test_rank0_metrics_and_mrr (rank : ℕ) (names : List (List Char))
    (agg : EvalAgg) (ms : List (List Char × ℚ)) (v : ℚ)
    (h : testResult rank names agg = .ok (ms, v)) :
    v = mrrScore agg.ranking ∧ (rank ≠ 0 → ms = []) := by
  rw [testResult] at h
  by_cases hr : rank = 0
  · rw [if_pos hr] at h
    cases hcm : computeMetricsGo agg none names with
    | error e => rw [hcm] at h; exact absurd h (by simp)
    | ok m =>
        rw [hcm] at h
        have hinj := Except.ok.inj h
        have h2 : v = mrrScore agg.ranking := (congrArg Prod.snd hinj).symm
        exact ⟨h2, fun hn => absurd hr hn⟩
  · rw [if_neg hr] at h
    have hinj := Except.ok.inj h
    have h2 : v = mrrScore agg.ranking := (congrArg Prod.snd hinj).symm
    have h1 : ms = [] := (congrArg Prod.fst hinj).symm
    exact ⟨h2, fun _ => h1⟩

/-- Concrete instantiation of the C7 theorem on a rank-1 worker. -/
theorem test_rank0_metrics_and_mrr_witness :
    testResult 1 ["mr".data] ⟨[1], [1], [1], [1]⟩ =
      .ok ([], mrrScore [1]) ∧ (1 : ℕ) ≠ 0 ∧
    mrrScore ([1] : List ℕ) = mrrScore (EvalAgg.mk [1] [1] [1] [1]).ranking :=
  ⟨rfl, by decide,
    (test_rank0_metrics_and_mrr 1 ["mr".data] ⟨[1], [1], [1], [1]⟩ [] (mrrScore [1]) rfl).1⟩

/-- Line 259 under IEEE float semantics: the division
`(_ranking - 1).float() / _num_neg` is performed with no guard on the
denominator.  `some q` is a finite result; `none` is the non-finite result
produced by a zero denominator (for `rank = 1`, the NaN `0.0/0.0`). -/
def fpRateChecked (r n : ℕ) : Option ℚ := if n = 0 then none else some (fpRate r n)

lemma fpRatesChecked_all_some :
    ∀ (rk nn : List ℕ), (∀ n ∈ nn, 1 ≤ n) →
    ∀ x ∈ List.zipWith fpRateChecked rk nn, x.isSome := by
  intro rk
  induction rk with
  | nil => intro nn _ x hx; simp at hx
  | cons r rs ih =>
      intro nn hpos x hx
      cases nn with
      | nil => simp at hx
      | cons n ns =>
          rw [List.zipWith_cons_cons] at hx
          rcases List.mem_cons.mp hx with hx1 | hx2
          · subst hx1
            rw [fpRateChecked, if_neg (by have := hpos n (by simp); omega)]
            rfl
          · exact ih ns (fun m hm => hpos m (by simp [hm])) x hx2

/-- C10: the estimator's false-positive rate divides `(rank - 1)` by
`num_negatives` unguarded.  Whenever every query has at least one valid
negative, every per-query rate is a finite, well-defined value; a query with
`num_negatives = 0` (which forces `rank = 1` upstream) produces the
non-finite unguarded quotient `0/0` — so the non-finite branch is reachable
exactly unless every query has `num_negatives ≥ 1`. -/
theorem fp_rate_unguarded_division (rk nn : List ℕ) (hpos : ∀ n ∈ nn, 1 ≤ n) :
    (∀ x ∈ List.zipWith fpRateChecked rk nn, x.isSome) ∧
    fpRateChecked 1 0 = none ∧
    fpRate 1 0 = ((1 : ℚ) - 1) / ((0 : ℕ) : ℚ) :=
  ⟨fpRatesChecked_all_some rk nn hpos, rfl, rfl⟩

/-- Concrete instantiation of the C10 theorem. -/
theorem fp_rate_unguarded_division_witness :
    (∀ n ∈ ([2] : List ℕ), 1 ≤ n) ∧
    (∀ x ∈ List.zipWith fpRateChecked [1] [2], x.isSome) ∧
    fpRateChecked 1 0 = none :=
  ⟨by decide, (fp_rate_unguarded_division [1] [2] (by decide)).1,
    (fp_rate_unguarded_division [1] [2] (by decide)).2.1⟩

end Stage2

namespace Stage2

/-! ## Training loop (`train_and_validate`, lines 69–148)

The loop groups epochs into blocks (`step = math.ceil(num_epoch / 10)`,
`for i in range(0, num_epoch, step)`), saves a checkpoint labelled
`epoch = min(num_epoch, i + step)` after each block, evaluates (`result`,
the validation MRR), tracks the best with strict `>` from
`best_result = -inf`, `best_epoch = -1`, and finally reloads the checkpoint
labelled `best_epoch`. -/

/-- `step = math.ceil(cfg.train.num_epoch / 10)`. -/
def epochStep (numEpoch : ℕ) : ℕ := (numEpoch + 9) / 10

/-- `range(0, num_epoch, step)`: the block start indices. -/
def blockStarts (numEpoch : ℕ) : List ℕ :=
  (List.range ((numEpoch + epochStep numEpoch - 1) / epochStep numEpoch)).map
    fun j => j * epochStep numEpoch

/-- `epoch = min(cfg.train.num_epoch, i + step)`: the checkpoint label of
each block. -/
def blockEpochs (numEpoch : ℕ) : List ℕ :=
  (blockStarts numEpoch).map fun i => min numEpoch (i + epochStep numEpoch)

/-- One comparison of the loop (lines 139–141): `if result > best_result`,
where `best_result` starts at `-inf` (modelled by `⊥` in `WithBot ℚ`). -/
def bestStep (res : ℕ → ℚ) (st : WithBot ℚ × ℤ) (e : ℕ) : WithBot ℚ × ℤ :=
  if (res e : WithBot ℚ) > st.1 then ((res e : WithBot ℚ), (e : ℤ)) else st

/-- The best-tracking fold over the block evaluations, from
`best_result = -inf`, `best_epoch = -1`. -/
def bestFold (res : ℕ → ℚ) (epochs : List ℕ) : WithBot ℚ × ℤ :=
  epochs.foldl (bestStep res) (⊥, -1)

/-- Lines 143–148: the returned model is the checkpoint labelled
`best_epoch`. -/
def trainFinalModel {α : Type} (ckpt : ℤ → α) (numEpoch : ℕ) (res : ℕ → ℚ) : α :=
  ckpt (bestFold res (blockEpochs numEpoch)).2

lemma bestFoldGo_spec (res : ℕ → ℚ) :
    ∀ (l : List ℕ) (b : ℚ) (be : ℤ),
    (l.foldl (bestStep res) ((b : WithBot ℚ), be) = ((b : WithBot ℚ), be) ∧
      ∀ e ∈ l, res e ≤ b) ∨
    (∃ l1 bE l2, l = l1 ++ bE :: l2 ∧ b < res bE ∧
      (∀ x ∈ l1, res x < res bE) ∧ (∀ x ∈ l2, res x ≤ res bE) ∧
      l.foldl (bestStep res) ((b : WithBot ℚ), be) =
        ((res bE : WithBot ℚ), (bE : ℤ))) := by
  intro l
  induction l with
  | nil => intro b be; exact Or.inl ⟨rfl, by simp⟩
  | cons e rest ih =>
      intro b be
      by_cases he : b < res e
      · rw [List.foldl_cons, bestStep, if_pos (show ((res e : WithBot ℚ)) > ((b : WithBot ℚ), be).1 from WithBot.coe_lt_coe.mpr he)]
        rcases ih (res e) (e : ℤ) with ⟨hfix, hle⟩ | ⟨l1, bE, l2, hsplit, hlt, hl1, hl2, hfold⟩
        · refine Or.inr ⟨[], e, rest, by simp, he, by simp, hle, hfix⟩
        · refine Or.inr ⟨e :: l1, bE, l2, by rw [hsplit]; rfl, lt_trans he hlt, ?_, hl2, hfold⟩
          intro x hx
          rcases List.mem_cons.mp hx with hx1 | hx2
          · subst hx1; exact hlt
          · exact hl1 x hx2
      · rw [List.foldl_cons, bestStep, if_neg (show ¬((res e : WithBot ℚ)) > ((b : WithBot ℚ), be).1 from fun hc => he (WithBot.coe_lt_coe.mp hc))]
        rcases ih b be with ⟨hfix, hle⟩ | ⟨l1, bE, l2, hsplit, hlt, hl1, hl2, hfold⟩
        · refine Or.inl ⟨hfix, ?_⟩
          intro x hx
          rcases List.mem_cons.mp hx with hx1 | hx2
          · subst hx1; exact not_lt.mp he
          · exact hle x hx2
        · refine Or.inr ⟨e :: l1, bE, l2, by rw [hsplit]; rfl, hlt, ?_, hl2, hfold⟩
          intro x hx
          rcases List.mem_cons.mp hx with hx1 | hx2
          · subst hx1; exact lt_of_le_of_lt (not_lt.mp he) hlt
          · exact hl1 x hx2

end Stage2

namespace Stage2

lemma blockEpochs_ne_nil (numEpoch : ℕ) (h : 0 < numEpoch) : blockEpochs numEpoch ≠ [] := by
  have hs : 1 ≤ epochStep numEpoch := by rw [epochStep]; omega
  have hb : 1 ≤ (numEpoch + epochStep numEpoch - 1) / epochStep numEpoch :=
    (Nat.one_le_div_iff hs).mpr (by omega)
  rw [blockEpochs, blockStarts, List.map_map]
  intro hc
  rw [List.map_eq_nil_iff, List.range_eq_nil] at hc
  omega

/-- C3: with `num_epoch > 0`, the loop's strict `>` best-tracking selects the
earliest block attaining the maximal validation MRR — every strictly earlier
block scored strictly less (so an equal MRR never displaces the earlier
best), every later block scored no more — and the model finally returned is
the checkpoint of that block, not the most recent epoch's. -/
theorem best_checkpoint_selection {α : Type} (ckpt : ℤ → α) (numEpoch : ℕ)
    (res : ℕ → ℚ) (h : 0 < numEpoch) :
    ∃ l1 bestE l2, blockEpochs numEpoch = l1 ++ bestE :: l2 ∧
      bestFold res (blockEpochs numEpoch) = ((res bestE : WithBot ℚ), (bestE : ℤ)) ∧
      (∀ e ∈ l1, res e < res bestE) ∧
      (∀ e ∈ l2, res e ≤ res bestE) ∧
      (∀ e ∈ blockEpochs numEpoch, res e ≤ res bestE) ∧
      trainFinalModel ckpt numEpoch res = ckpt bestE := by
  obtain ⟨e, rest, hcons⟩ := List.exists_cons_of_ne_nil (blockEpochs_ne_nil numEpoch h)
  have hstep1 : bestFold res (e :: rest) =
      rest.foldl (bestStep res) ((res e : WithBot ℚ), (e : ℤ)) := by
    rw [bestFold, List.foldl_cons, bestStep,
      if_pos (show ((res e : WithBot ℚ)) > ((⊥ : WithBot ℚ), (-1 : ℤ)).1 from
        WithBot.bot_lt_coe (res e))]
  rcases bestFoldGo_spec res rest (res e) (e : ℤ) with
    ⟨hfix, hle⟩ | ⟨l1', bE, l2', hsplit, hlt, hl1, hl2, hfold⟩
  · refine ⟨[], e, rest, by rw [hcons]; rfl, ?_, by simp, hle, ?_, ?_⟩
    · rw [hcons, hstep1, hfix]
    · intro x hx
      rw [hcons] at hx
      rcases List.mem_cons.mp hx with hx1 | hx2
      · subst hx1; exact le_refl _
      · exact hle x hx2
    · rw [trainFinalModel, hcons, hstep1, hfix]
  · refine ⟨e :: l1', bE, l2', by rw [hcons, hsplit]; rfl, ?_, ?_, hl2, ?_, ?_⟩
    · rw [hcons, hstep1, hsplit] at *
      exact hfold
    · intro x hx
      rcases List.mem_cons.mp hx with hx1 | hx2
      · subst hx1; exact hlt
      · exact hl1 x hx2
    · intro x hx
      rw [hcons, hsplit] at hx
      rcases List.mem_cons.mp hx with hx1 | hx2
      · subst hx1; exact le_of_lt hlt
      · rcases List.mem_append.mp hx2 with hx3 | hx4
        · exact le_of_lt (hl1 x hx3)
        · rcases List.mem_cons.mp hx4 with hx5 | hx6
          · subst hx5; exact le_refl _
          · exact hl2 x hx6
    · rw [trainFinalModel, hcons, hstep1, hfold]

/-- Concrete instantiation of the C3 theorem: two blocks with equal MRR keep
the first block's checkpoint. -/
theorem best_checkpoint_selection_witness :
    0 < 2 ∧
    ∃ (l1 : List ℕ) (bestE : ℕ) (l2 : List ℕ), blockEpochs 2 = l1 ++ bestE :: l2 ∧
      bestFold (fun _ => (1 : ℚ)) (blockEpochs 2) = (((1 : ℚ) : WithBot ℚ), (bestE : ℤ)) ∧
      (∀ e ∈ l1, (1 : ℚ) < 1) ∧
      (∀ e ∈ l2, (1 : ℚ) ≤ 1) ∧
      (∀ e ∈ blockEpochs 2, (1 : ℚ) ≤ 1) ∧
      trainFinalModel (fun z : ℤ => z) 2 (fun _ => (1 : ℚ)) = bestE :=
  ⟨by decide, best_checkpoint_selection (fun z : ℤ => z) 2 (fun _ => (1 : ℚ)) (by decide)⟩

end Stage2

namespace Stage2

/-! ## Training loss (`train_and_validate`, lines 94–109)

Float tensors become `ℝ` here because the loss takes `exp`/`log`.  `pred` is
the score matrix, one row per query: the positive's score in column 0,
`N = cfg.task.num_negative` negative scores after it.  `T` is
`cfg.task.adversarial_temperature`.  These definitions are noncomputable
because `ℝ`'s `exp`/`log` are. -/

/-- `torch.sigmoid`. -/
noncomputable def sigmoid (x : ℝ) : ℝ := 1 / (1 + Real.exp (-x))

/-- One element of `F.binary_cross_entropy_with_logits(pred, target,
reduction="none")`. -/
noncomputable def bceLogits (x y : ℝ) : ℝ :=
  -(y * Real.log (sigmoid x) + (1 - y) * Real.log (1 - sigmoid x))

/-- `F.softmax(v, dim=-1)`. -/
noncomputable def softmax (v : List ℝ) : List ℝ :=
  v.map fun x => Real.exp x / (v.map Real.exp).sum

/-- `target = torch.zeros_like(pred); target[:, 0] = 1`, one row. -/
def targetOf : List ℝ → List ℝ
  | [] => []
  | _ :: t => (1 : ℝ) :: t.map fun _ => (0 : ℝ)

/-- `neg_weight = torch.ones_like(pred)` with columns `1:` overwritten by
the temperature branch: `softmax(pred[:, 1:] / T)` when `T > 0`, else the
uniform `1 / cfg.task.num_negative`. -/
noncomputable def negWeightRow (T : ℝ) (N : ℕ) : List ℝ → List ℝ
  | [] => []
  | _ :: t => (1 : ℝ) ::
      (if 0 < T then softmax (t.map fun x => x / T) else t.map fun _ => 1 / (N : ℝ))

/-- Lines 97–108 for one row:
`(loss * neg_weight).sum(dim=-1) / neg_weight.sum(dim=-1)`. -/
noncomputable def lossRow (T : ℝ) (N : ℕ) (row : List ℝ) : ℝ :=
  ((List.zipWith (· * ·) (List.zipWith bceLogits row (targetOf row))
      (negWeightRow T N row)).sum) / (negWeightRow T N row).sum

/-- `loss.mean()` over the rows of the mini-batch. -/
noncomputable def batchLoss (T : ℝ) (N : ℕ) (pred : List (List ℝ)) : ℝ :=
  (pred.map (lossRow T N)).sum / ((pred.map (lossRow T N)).length : ℝ)

/-- The spec's wording of the per-row loss: the positive column carries
weight 1, each negative column `j` carries weight `w j`, the weighted
per-element binary cross-entropies are summed and divided by the row's total
weight. -/
noncomputable def specLossRow (w : List ℝ) (x0 : ℝ) (xs : List ℝ) : ℝ :=
  (bceLogits x0 1 + (List.zipWith (fun wj xj => wj * bceLogits xj 0) w xs).sum) /
    (1 + w.sum)

lemma weighted_bce_tail (xs : List ℝ) :
    ∀ w : List ℝ,
    List.zipWith (· * ·) (List.zipWith bceLogits xs (xs.map fun _ => (0 : ℝ))) w =
      List.zipWith (fun wj xj => wj * bceLogits xj 0) w xs := by
  induction xs with
  | nil => intro w; simp
  | cons x t ih =>
      intro w
      cases w with
      | nil => simp
      | cons a b =>
          simp only [List.map_cons, List.zipWith_cons_cons, List.cons.injEq]
          exact ⟨mul_comm _ _, ih b⟩

lemma lossRow_spec (T : ℝ) (N : ℕ) (x0 : ℝ) (xs : List ℝ) :
    lossRow T N (x0 :: xs) =
      specLossRow (if 0 < T then softmax (xs.map fun x => x / T)
        else xs.map fun _ => 1 / (N : ℝ)) x0 xs := by
  rw [lossRow, specLossRow, targetOf, negWeightRow]
  simp only [List.zipWith_cons_cons, List.sum_cons, one_mul, mul_one]
  rw [weighted_bce_tail]

/-- C8: for every mini-batch, the loss is the mean over rows of a weighted
binary cross-entropy against the target `1` in column 0 and `0` elsewhere,
each row summed with its weights and divided by the row's total weight
`1 + sum of negative weights`; the negative-column weights are the uniform
`1/N` when the adversarial temperature is 0 and the softmax of the negative
scores divided by the temperature when it is positive, while the positive
column's weight is 1 in both branches. -/
theorem train_loss_weighted_bce (T : ℝ) (N : ℕ) (pred : List (List ℝ))
    (hrows : ∀ row ∈ pred, row ≠ []) :
    (T = 0 →
      batchLoss T N pred = ((pred.map fun row =>
        specLossRow (row.tail.map fun _ => 1 / (N : ℝ)) (row.headD 0) row.tail).sum) /
          (pred.length : ℝ)) ∧
    (0 < T →
      batchLoss T N pred = ((pred.map fun row =>
        specLossRow (softmax (row.tail.map fun x => x / T)) (row.headD 0) row.tail).sum) /
          (pred.length : ℝ)) := by
  constructor
  · intro hT0
    rw [batchLoss, List.length_map]
    congr 1
    congr 1
    apply List.map_congr_left
    intro row hrow
    obtain ⟨x0, xs, rfl⟩ := List.exists_cons_of_ne_nil (hrows row hrow)
    rw [lossRow_spec, if_neg (by rw [hT0]; exact lt_irrefl 0)]
    rfl
  · intro hTpos
    rw [batchLoss, List.length_map]
    congr 1
    congr 1
    apply List.map_congr_left
    intro row hrow
    obtain ⟨x0, xs, rfl⟩ := List.exists_cons_of_ne_nil (hrows row hrow)
    rw [lossRow_spec, if_pos hTpos]
    rfl

/-- Concrete instantiation of the C8 theorem in the uniform branch. -/
theorem train_loss_weighted_bce_witness :
    batchLoss 0 1 [[(0 : ℝ)]] = (([[(0 : ℝ)]].map fun row =>
      specLossRow (row.tail.map fun _ => 1 / ((1 : ℕ) : ℝ)) (row.headD 0) row.tail).sum) /
        (([[(0 : ℝ)]] : List (List ℝ)).length : ℝ) :=
  (train_loss_weighted_bce 0 1 [[(0 : ℝ)]] (fun row hr => by
    rw [List.mem_singleton.mp hr]
    exact List.cons_ne_nil 0 [])).1 rfl

end Stage2
